import Mathlib

/-!
Verification of the task-scheduler core.

The first part embeds `src/taskScheduler.py` directly: a metadata dictionary
mapping task ids to records, with `add_task_metadata`, `find_task_metadata`
and `complete_task_metadata` returning exactly what the Python code returns
(success/error message strings; `find` returns the record on success).

The second part models the priority structure and the scheduler facade
(`submit`, `inspect`, `next`, `dispatch`, `cancel`) from the specification,
since that component is only declared in a comment in the source.
-/

/-- A task metadata record, the value stored in the Python dict:
`\x7b'deadline': int, 'urgency': int, 'description': str\x7d`. -/
structure TaskMeta where
  deadline : Int
  urgency : Int
  description : String
  deriving DecidableEq, Repr

/-- The scheduler state of the source: the `task_metadata` dict, modelled as an
insertion-ordered association list. -/
structure Scheduler where
  task_metadata : List (String × TaskMeta)
  deriving DecidableEq, Repr

/-- `TaskScheduler.__init__`: the empty dict. -/
def initScheduler : Scheduler := ⟨[]⟩

/-- The single-quote character used inside the source's message strings. -/
def quoteChar : String := String.singleton (Char.ofNat 39)

/-- The duplicate-id error string returned by `add_task_metadata`. -/
def dupIdMsg (task_id : String) : String :=
  "Error: Task ID " ++ quoteChar ++ task_id ++ quoteChar ++ " already exists."

/-- The success string returned by `add_task_metadata`. -/
def addedMsg (task_id : String) : String :=
  "Metadata added for Task ID: " ++ task_id

/-- The not-found error string returned by `find_task_metadata` and
`complete_task_metadata`. -/
def notFoundMsg (task_id : String) : String :=
  "Error: Task ID " ++ quoteChar ++ task_id ++ quoteChar ++ " not found."

/-- The success string returned by `complete_task_metadata`. -/
def deletedMsg (task_id : String) : String :=
  "Metadata deleted for Task ID: " ++ task_id

/-- Python `task_id in self.task_metadata`. -/
def dictContains (d : List (String × TaskMeta)) (k : String) : Bool :=
  (List.lookup k d).isSome

/-- Python `del self.task_metadata[task_id]`. -/
def dictDelete (d : List (String × TaskMeta)) (k : String) : List (String × TaskMeta) :=
  d.filter (fun p => p.1 != k)

/-- `TaskScheduler.add_task_metadata`: rejects a duplicate id with an error
string, otherwise stores the record and returns the success string. -/
def add_task_metadata (s : Scheduler) (task_id : String) (deadline urgency : Int)
    (description : String) : String × Scheduler :=
  if dictContains s.task_metadata task_id then
    (dupIdMsg task_id, s)
  else
    (addedMsg task_id,
     ⟨s.task_metadata ++ [(task_id, ⟨deadline, urgency, description⟩)]⟩)

/-- `TaskScheduler.find_task_metadata`: returns the stored record, or the
not-found error string. -/
def find_task_metadata (s : Scheduler) (task_id : String) : Sum TaskMeta String :=
  match List.lookup task_id s.task_metadata with
  | some m => Sum.inl m
  | none => Sum.inr (notFoundMsg task_id)

/-- `TaskScheduler.complete_task_metadata`: deletes the entry and returns the
deletion message, or the not-found error string. -/
def complete_task_metadata (s : Scheduler) (task_id : String) : String × Scheduler :=
  if dictContains s.task_metadata task_id then
    (deletedMsg task_id, ⟨dictDelete s.task_metadata task_id⟩)
  else
    (notFoundMsg task_id, s)

/-- Folding a sequence of `add_task_metadata` calls (id, deadline, urgency,
description) over a scheduler state. -/
def addAll (s : Scheduler) (ts : List (String × Int × Int × String)) : Scheduler :=
  ts.foldl (fun acc t => (add_task_metadata acc t.1 t.2.1 t.2.2.1 t.2.2.2).2) s

/-! ### Dictionary lemmas -/

theorem lookup_isSome_iff (d : List (String × TaskMeta)) (k : String) :
    (List.lookup k d).isSome ↔ k ∈ d.map Prod.fst := by
  induction d with
  | nil => simp [List.lookup]
  | cons p d ih =>
    obtain ⟨k2, m⟩ := p
    by_cases h : k = k2
    · subst h; simp [List.lookup]
    · simp [List.lookup, beq_false_of_ne h, h, ih]

theorem lookup_dictDelete_self (d : List (String × TaskMeta)) (k : String) :
    List.lookup k (dictDelete d k) = none := by
  induction d with
  | nil => simp [dictDelete]
  | cons p d ih =>
    obtain ⟨k2, m⟩ := p
    by_cases h : k2 = k
    · subst h; simpa [dictDelete] using ih
    · simp only [dictDelete, List.filter_cons] at ih ⊢
      have hne : (k2 != k) = true := by simpa using h
      simp [hne, List.lookup, beq_false_of_ne (Ne.symm h), ih]

theorem lookup_dictDelete_ne (d : List (String × TaskMeta)) (k k2 : String)
    (h : k ≠ k2) : List.lookup k (dictDelete d k2) = List.lookup k d := by
  induction d with
  | nil => simp [dictDelete]
  | cons p d ih =>
    obtain ⟨k3, m⟩ := p
    by_cases h3 : k3 = k2
    · subst h3
      simp only [dictDelete, List.filter_cons] at ih ⊢
      simp [List.lookup, beq_false_of_ne h, ih]
    · have hne : (k3 != k2) = true := by simpa using h3
      simp only [dictDelete, List.filter_cons] at ih ⊢
      by_cases hk : k = k3
      · subst hk; simp [hne, List.lookup]
      · simp [hne, List.lookup, beq_false_of_ne hk, ih]

theorem lookup_append_of_some (d l : List (String × TaskMeta)) (k : String)
    (m : TaskMeta) (h : List.lookup k d = some m) :
    List.lookup k (d ++ l) = some m := by
  induction d with
  | nil => simp [List.lookup] at h
  | cons p d ih =>
    obtain ⟨k2, m2⟩ := p
    by_cases hk : k = k2
    · subst hk
      simp [List.lookup] at h ⊢
      exact h
    · simp [List.lookup, beq_false_of_ne hk] at h ⊢
      exact ih h

theorem lookup_append_of_none (d l : List (String × TaskMeta)) (k : String)
    (h : List.lookup k d = none) :
    List.lookup k (d ++ l) = List.lookup k l := by
  induction d with
  | nil => simp
  | cons p d ih =>
    obtain ⟨k2, m2⟩ := p
    by_cases hk : k = k2
    · subst hk; simp [List.lookup] at h
    · simp only [List.lookup, List.cons_append, beq_false_of_ne hk] at h ⊢
      exact ih h

theorem map_fst_dictDelete (d : List (String × TaskMeta)) (k : String) :
    (dictDelete d k).map Prod.fst = (d.map Prod.fst).filter (fun x => x != k) := by
  induction d with
  | nil => simp [dictDelete]
  | cons p d ih =>
    obtain ⟨k2, m⟩ := p
    by_cases h : k2 = k
    · subst h
      simp only [dictDelete, List.filter_cons] at ih ⊢
      simpa using ih
    · have hne : (k2 != k) = true := by simpa using h
      simp only [dictDelete, List.filter_cons, List.map_cons] at ih ⊢
      simp [hne, ih]

/-- After any sequence of adds, an id that was already mapped keeps its value. -/
theorem addAll_preserves_some (ts : List (String × Int × Int × String)) :
    ∀ (s : Scheduler) (k : String) (m : TaskMeta),
      List.lookup k s.task_metadata = some m →
      List.lookup k (addAll s ts).task_metadata = some m := by
  induction ts with
  | nil => intro s k m h; simpa [addAll] using h
  | cons t ts ih =>
    intro s k m h
    simp only [addAll, List.foldl_cons] at ih ⊢
    apply ih
    unfold add_task_metadata
    by_cases hc : dictContains s.task_metadata t.1
    · simpa [hc] using h
    · simp only [hc, if_false]
      exact lookup_append_of_some _ _ _ _ h

/-- Generalised form of C4: from any state in which the submitted ids are all
fresh, each submitted id maps to exactly the record supplied for it. -/
theorem addAll_retrievable (ts : List (String × Int × Int × String)) :
    ∀ (s : Scheduler), (ts.map Prod.fst).Nodup →
      (∀ t ∈ ts, List.lookup t.1 s.task_metadata = none) →
      ∀ t ∈ ts, find_task_metadata (addAll s ts) t.1 =
        Sum.inl ⟨t.2.1, t.2.2.1, t.2.2.2⟩ := by
  induction ts with
  | nil => intro s _ _ t ht; simp at ht
  | cons t0 ts ih =>
    intro s hnd hfresh t ht
    have hfresh0 : List.lookup t0.1 s.task_metadata = none :=
      hfresh t0 (List.mem_cons_self t0 ts)
    have hc : dictContains s.task_metadata t0.1 = false := by
      simp [dictContains, hfresh0]
    have hstep : (add_task_metadata s t0.1 t0.2.1 t0.2.2.1 t0.2.2.2).2 =
        ⟨s.task_metadata ++ [(t0.1, ⟨t0.2.1, t0.2.2.1, t0.2.2.2⟩)]⟩ := by
      simp [add_task_metadata, hc]
    rcases List.mem_cons.mp ht with h0 | hmem
    · subst h0
      have hsome : List.lookup t.1
          (s.task_metadata ++ [(t.1, ⟨t.2.1, t.2.2.1, t.2.2.2⟩)]) =
          some ⟨t.2.1, t.2.2.1, t.2.2.2⟩ := by
        rw [lookup_append_of_none _ _ _ hfresh0]
        simp [List.lookup]
      have := addAll_preserves_some ts
        ⟨s.task_metadata ++ [(t.1, ⟨t.2.1, t.2.2.1, t.2.2.2⟩)]⟩ t.1
        ⟨t.2.1, t.2.2.1, t.2.2.2⟩ hsome
      simp only [addAll, List.foldl_cons, hstep]
      simp [find_task_metadata, addAll] at this ⊢
      rw [this]
    · have hnd2 : (ts.map Prod.fst).Nodup := (List.nodup_cons.mp hnd).2
      have hne : ∀ u ∈ ts, u.1 ≠ t0.1 := by
        intro u hu hequ
        exact (List.nodup_cons.mp hnd).1 (hequ ▸ List.mem_map_of_mem Prod.fst hu)
      have hfresh2 : ∀ u ∈ ts,
          List.lookup u.1 (s.task_metadata ++
            [(t0.1, (⟨t0.2.1, t0.2.2.1, t0.2.2.2⟩ : TaskMeta))]) = none := by
        intro u hu
        rw [lookup_append_of_none _ _ _ (hfresh u (List.mem_cons_of_mem t0 hu))]
        simp [List.lookup, beq_false_of_ne (hne u hu)]
      have := ih ⟨s.task_metadata ++ [(t0.1, ⟨t0.2.1, t0.2.2.1, t0.2.2.2⟩)]⟩
        hnd2 hfresh2 t hmem
      simp only [addAll, List.foldl_cons, hstep]
      simpa [addAll] using this

/-! ### The priority structure and scheduler facade, modelled from the spec

The source only declares the min-heap in a comment (`self.min_heap = []`),
so this component is modelled from the specification and composed with the
source's metadata-index operations. -/

/-- Modelled from the spec: the error taxonomy of section 7 (`DuplicateId`,
`NotFound`); emptiness is an absent-value result, not an error. -/
inductive SchedErr where
  | DuplicateId
  | NotFound
  deriving DecidableEq, Repr

/-- Modelled from the spec: a Priority Entry — a task_id together with the
sort key derived from (urgency, deadline), plus the submission sequence
number used as the final tie-break. -/
structure PrioEntry where
  task_id : String
  urgency : Int
  deadline : Int
  seq : Nat
  deriving DecidableEq, Repr

/-- Modelled from the spec: the ordering key comparison — urgency ascending
(lower urgency value = higher priority), then deadline ascending, then
insertion order. Reflexive version. -/
def keyLe (a b : PrioEntry) : Prop :=
  a.urgency < b.urgency ∨ (a.urgency = b.urgency ∧
    (a.deadline < b.deadline ∨ (a.deadline = b.deadline ∧ a.seq ≤ b.seq)))

/-- Strict version of `keyLe`. -/
def keyLt (a b : PrioEntry) : Prop :=
  a.urgency < b.urgency ∨ (a.urgency = b.urgency ∧
    (a.deadline < b.deadline ∨ (a.deadline = b.deadline ∧ a.seq < b.seq)))

instance : DecidableRel keyLe := fun a b => by
  unfold keyLe; exact inferInstance

instance : DecidableRel keyLt := fun a b => by
  unfold keyLt; exact inferInstance

instance : IsTotal PrioEntry keyLe where
  total a b := by unfold keyLe; omega

instance : IsTrans PrioEntry keyLe where
  trans a b c hab hbc := by unfold keyLe at hab hbc ⊢; omega

theorem keyLt_of_keyLe_of_seq_ne (a b : PrioEntry) (h : keyLe a b)
    (hseq : a.seq ≠ b.seq) : keyLt a b := by
  unfold keyLe at h; unfold keyLt; omega

/-- Modelled from the spec: the full scheduler state — the source's Metadata
Index composed with the Priority Structure (kept sorted by `keyLe`) and the
next submission sequence number. -/
structure SpecScheduler where
  index : Scheduler
  heap : List PrioEntry
  nextSeq : Nat
  deriving DecidableEq, Repr

/-- The initial scheduler: empty index, empty priority structure. -/
def initSpecScheduler : SpecScheduler := ⟨initScheduler, [], 0⟩

/-- Modelled from the spec: `submit` — fails with `DuplicateId` if the id is
present, otherwise inserts into the Index then the Priority Structure. -/
def submit (s : SpecScheduler) (task_id : String) (deadline urgency : Int)
    (description : String) : Except SchedErr Unit × SpecScheduler :=
  if dictContains s.index.task_metadata task_id then
    (Except.error SchedErr.DuplicateId, s)
  else
    (Except.ok (),
     ⟨(add_task_metadata s.index task_id deadline urgency description).2,
      s.heap.orderedInsert keyLe ⟨task_id, urgency, deadline, s.nextSeq⟩,
      s.nextSeq + 1⟩)

/-- Modelled from the spec: `inspect` delegates to the Index lookup and
fails with `NotFound` if absent. -/
def inspect (s : SpecScheduler) (task_id : String) : Except SchedErr TaskMeta :=
  match find_task_metadata s.index task_id with
  | Sum.inl m => Except.ok m
  | Sum.inr _ => Except.error SchedErr.NotFound

/-- Modelled from the spec: `next` peeks the Priority Structure and
cross-checks the Index, returning the top task's record without removal. -/
def next (s : SpecScheduler) : Option (String × TaskMeta) :=
  match s.heap with
  | [] => none
  | e :: _ =>
    match find_task_metadata s.index e.task_id with
    | Sum.inl m => some (e.task_id, m)
    | Sum.inr _ => none

/-- Modelled from the spec: `dispatch` — extract-min from the Priority
Structure, then remove the matching record from the Index. -/
def dispatch (s : SpecScheduler) : Option (String × TaskMeta) × SpecScheduler :=
  match s.heap with
  | [] => (none, s)
  | e :: rest =>
    match find_task_metadata s.index e.task_id with
    | Sum.inl m =>
      (some (e.task_id, m),
       ⟨(complete_task_metadata s.index e.task_id).2, rest, s.nextSeq⟩)
    | Sum.inr _ => (none, s)

/-- Modelled from the spec: `cancel` — removes the task from both the
Priority Structure and the Index, returning the record; `NotFound` if the
task is not pending. -/
def cancel (s : SpecScheduler) (task_id : String) :
    Except SchedErr (String × TaskMeta) × SpecScheduler :=
  match find_task_metadata s.index task_id with
  | Sum.inl m =>
    (Except.ok (task_id, m),
     ⟨(complete_task_metadata s.index task_id).2,
      s.heap.filter (fun e => e.task_id != task_id),
      s.nextSeq⟩)
  | Sum.inr _ => (Except.error SchedErr.NotFound, s)

/-- States reachable from the initial scheduler by the mutating operations. -/
inductive Reachable : SpecScheduler → Prop where
  | init : Reachable initSpecScheduler
  | step_submit (s : SpecScheduler) (task_id : String) (deadline urgency : Int)
      (description : String) :
      Reachable s → Reachable (submit s task_id deadline urgency description).2
  | step_dispatch (s : SpecScheduler) : Reachable s → Reachable (dispatch s).2
  | step_cancel (s : SpecScheduler) (task_id : String) :
      Reachable s → Reachable (cancel s task_id).2

/-- The consistency invariant between the Metadata Index and the Priority
Structure. -/
structure SchedInv (s : SpecScheduler) : Prop where
  nodupKeys : (s.index.task_metadata.map Prod.fst).Nodup
  nodupIds : (s.heap.map PrioEntry.task_id).Nodup
  seqNodup : (s.heap.map PrioEntry.seq).Nodup
  seqLt : ∀ e ∈ s.heap, e.seq < s.nextSeq
  sorted : s.heap.Sorted keyLe
  agree : ∀ e ∈ s.heap, ∃ m, List.lookup e.task_id s.index.task_metadata = some m ∧
    m.urgency = e.urgency ∧ m.deadline = e.deadline
  indexSub : ∀ k, (List.lookup k s.index.task_metadata).isSome →
    k ∈ s.heap.map PrioEntry.task_id

/-! ### Invariant preservation -/

theorem find_eq_inl_iff (s : Scheduler) (k : String) (m : TaskMeta) :
    find_task_metadata s k = Sum.inl m ↔ List.lookup k s.task_metadata = some m := by
  unfold find_task_metadata
  rcases hl : List.lookup k s.task_metadata with _ | m2 <;> simp [hl]

theorem find_eq_inr_iff (s : Scheduler) (k : String) (str : String) :
    find_task_metadata s k = Sum.inr str ↔
      (List.lookup k s.task_metadata = none ∧ str = notFoundMsg k) := by
  unfold find_task_metadata
  rcases hl : List.lookup k s.task_metadata with _ | m2 <;> simp [hl, eq_comm]

theorem lookup_singleton (k k2 : String) (m : TaskMeta) :
    List.lookup k [(k2, m)] = if k = k2 then some m else none := by
  by_cases h : k = k2
  · subst h; simp [List.lookup]
  · simp [List.lookup, beq_false_of_ne h, h]

theorem inv_init : SchedInv initSpecScheduler := by
  constructor <;> simp [initSpecScheduler, initScheduler, List.Sorted]

theorem inv_submit (s : SpecScheduler) (task_id : String) (deadline urgency : Int)
    (description : String) (h : SchedInv s) :
    SchedInv (submit s task_id deadline urgency description).2 := by
  rcases hlook : List.lookup task_id s.index.task_metadata with _ | m0
  case some => simpa [submit, dictContains, hlook] using h
  case none =>
    have hc : dictContains s.index.task_metadata task_id = false := by
      simp [dictContains, hlook]
    have hkeys : task_id ∉ s.index.task_metadata.map Prod.fst := by
      rw [← lookup_isSome_iff, hlook]; simp
    have hids : task_id ∉ s.heap.map PrioEntry.task_id := by
      intro hmem
      obtain ⟨e, he, heid⟩ := List.mem_map.mp hmem
      obtain ⟨m, hm, _⟩ := h.agree e he
      rw [heid, hlook] at hm
      exact Option.noConfusion hm
    have hstep : (submit s task_id deadline urgency description).2 =
        ⟨⟨s.index.task_metadata ++ [(task_id, ⟨deadline, urgency, description⟩)]⟩,
         s.heap.orderedInsert keyLe ⟨task_id, urgency, deadline, s.nextSeq⟩,
         s.nextSeq + 1⟩ := by
      simp [submit, hc, add_task_metadata]
    rw [hstep]
    have hperm : (s.heap.orderedInsert keyLe
        ⟨task_id, urgency, deadline, s.nextSeq⟩).Perm
        (⟨task_id, urgency, deadline, s.nextSeq⟩ :: s.heap) :=
      List.perm_orderedInsert keyLe _ s.heap
    constructor
    · simp only [List.map_append]
      rw [List.nodup_append]
      refine ⟨h.nodupKeys, by simp, ?_⟩
      intro a ha hb
      simp at hb
      subst hb
      exact hkeys ha
    · rw [List.Perm.nodup_iff (hperm.map PrioEntry.task_id)]
      simp only [List.map_cons, List.nodup_cons]
      exact ⟨hids, h.nodupIds⟩
    · rw [List.Perm.nodup_iff (hperm.map PrioEntry.seq)]
      simp only [List.map_cons, List.nodup_cons]
      refine ⟨?_, h.seqNodup⟩
      intro hmem
      obtain ⟨e, he, heseq⟩ := List.mem_map.mp hmem
      exact absurd heseq (Nat.ne_of_lt (h.seqLt e he))
    · intro e he
      rcases (List.mem_orderedInsert keyLe).mp he with he0 | hein
      · subst he0; simp
      · exact Nat.lt_succ_of_lt (h.seqLt e hein)
    · exact List.Sorted.orderedInsert _ _ h.sorted
    · intro e he
      rcases (List.mem_orderedInsert keyLe).mp he with he0 | hein
      · subst he0
        refine ⟨⟨deadline, urgency, description⟩, ?_, rfl, rfl⟩
        rw [lookup_append_of_none _ _ _ hlook, lookup_singleton]
        simp
      · obtain ⟨m, hm, hmu, hmd⟩ := h.agree e hein
        exact ⟨m, lookup_append_of_some _ _ _ _ hm, hmu, hmd⟩
    · intro k hk
      rcases hl2 : List.lookup k s.index.task_metadata with _ | m2
      · rw [lookup_append_of_none _ _ _ hl2, lookup_singleton] at hk
        by_cases hkk : k = task_id
        · subst hkk
          exact List.mem_map.mpr ⟨_, (List.mem_orderedInsert keyLe).mpr (Or.inl rfl), rfl⟩
        · simp [hkk] at hk
      · have : k ∈ s.heap.map PrioEntry.task_id := h.indexSub k (by simp [hl2])
        obtain ⟨e, he, heid⟩ := List.mem_map.mp this
        exact List.mem_map.mpr ⟨e, (List.mem_orderedInsert keyLe).mpr (Or.inr he), heid⟩

theorem inv_dispatch (s : SpecScheduler) (h : SchedInv s) : SchedInv (dispatch s).2 := by
  rcases hheap : s.heap with _ | ⟨e, rest⟩
  · simpa [dispatch, hheap] using h
  · rcases hfind : find_task_metadata s.index e.task_id with m | str
    · have hlook : List.lookup e.task_id s.index.task_metadata = some m :=
        (find_eq_inl_iff _ _ _).mp hfind
      have hcontains : dictContains s.index.task_metadata e.task_id = true := by
        simp [dictContains, hlook]
      have hstep : (dispatch s).2 =
          ⟨⟨dictDelete s.index.task_metadata e.task_id⟩, rest, s.nextSeq⟩ := by
        simp [dispatch, hheap, hfind, complete_task_metadata, hcontains]
      rw [hstep]
      have hnodup := h.nodupIds
      rw [hheap] at hnodup
      simp only [List.map_cons, List.nodup_cons] at hnodup
      constructor
      · rw [map_fst_dictDelete]
        exact h.nodupKeys.filter _
      · have := h.nodupIds; rw [hheap] at this
        exact (List.nodup_cons.mp (by simpa using this)).2
      · have := h.seqNodup; rw [hheap] at this
        exact (List.nodup_cons.mp (by simpa using this)).2
      · intro e2 he2
        exact h.seqLt e2 (hheap ▸ List.mem_cons_of_mem e he2)
      · have := h.sorted; rw [hheap] at this
        exact this.of_cons
      · intro e2 he2
        have hne : e2.task_id ≠ e.task_id := by
          intro heq
          exact hnodup.1 (heq ▸ List.mem_map_of_mem PrioEntry.task_id he2)
        obtain ⟨m2, hm2, hmu, hmd⟩ :=
          h.agree e2 (hheap ▸ List.mem_cons_of_mem e he2)
        exact ⟨m2, (lookup_dictDelete_ne _ _ _ hne).trans hm2, hmu, hmd⟩
      · intro k hk
        have hkne : k ≠ e.task_id := by
          intro heq
          rw [heq, lookup_dictDelete_self] at hk
          simp at hk
        rw [lookup_dictDelete_ne _ _ _ hkne] at hk
        have := h.indexSub k hk
        rw [hheap] at this
        simp only [List.map_cons, List.mem_cons] at this
        rcases this with h1 | h2
        · exact absurd h1 hkne
        · exact h2
    · simpa [dispatch, hheap, hfind] using h

theorem inv_cancel (s : SpecScheduler) (task_id : String) (h : SchedInv s) :
    SchedInv (cancel s task_id).2 := by
  rcases hfind : find_task_metadata s.index task_id with m | str
  · have hlook : List.lookup task_id s.index.task_metadata = some m :=
      (find_eq_inl_iff _ _ _).mp hfind
    have hcontains : dictContains s.index.task_metadata task_id = true := by
      simp [dictContains, hlook]
    have hstep : (cancel s task_id).2 =
        ⟨⟨dictDelete s.index.task_metadata task_id⟩,
         s.heap.filter (fun e => e.task_id != task_id), s.nextSeq⟩ := by
      simp [cancel, hfind, complete_task_metadata, hcontains]
    rw [hstep]
    have hsub : (s.heap.filter (fun e => e.task_id != task_id)).Sublist s.heap :=
      List.filter_sublist s.heap
    constructor
    · rw [map_fst_dictDelete]
      exact h.nodupKeys.filter _
    · exact h.nodupIds.sublist (hsub.map PrioEntry.task_id)
    · exact h.seqNodup.sublist (hsub.map PrioEntry.seq)
    · intro e2 he2
      exact h.seqLt e2 (List.mem_of_mem_filter he2)
    · exact h.sorted.filter _
    · intro e2 he2
      have hmem := List.mem_filter.mp he2
      have hne : e2.task_id ≠ task_id := by simpa using hmem.2
      obtain ⟨m2, hm2, hmu, hmd⟩ := h.agree e2 hmem.1
      exact ⟨m2, (lookup_dictDelete_ne _ _ _ hne).trans hm2, hmu, hmd⟩
    · intro k hk
      have hkne : k ≠ task_id := by
        intro heq
        rw [heq, lookup_dictDelete_self] at hk
        simp at hk
      rw [lookup_dictDelete_ne _ _ _ hkne] at hk
      obtain ⟨e2, he2, heid⟩ := List.mem_map.mp (h.indexSub k hk)
      refine List.mem_map.mpr ⟨e2, List.mem_filter.mpr ⟨he2, ?_⟩, heid⟩
      simpa using heid.symm ▸ hkne
  · simpa [cancel, hfind] using h

/-- Every reachable state satisfies the consistency invariant. -/
theorem reach_inv (s : SpecScheduler) (hr : Reachable s) : SchedInv s := by
  induction hr with
  | init => exact inv_init
  | step_submit s2 task_id d u desc _ ih => exact inv_submit s2 task_id d u desc ih
  | step_dispatch s2 _ ih => exact inv_dispatch s2 ih
  | step_cancel s2 task_id _ ih => exact inv_cancel s2 task_id ih

/-! ### Operation sequences over the facade -/

/-- A facade operation, for stating properties over operation sequences. -/
inductive Op where
  | opSubmit (task_id : String) (deadline urgency : Int) (description : String)
  | opDispatch
  | opCancel (task_id : String)
  deriving DecidableEq, Repr

/-- Apply one facade operation to a state. -/
def applyOp (s : SpecScheduler) : Op → SpecScheduler
  | Op.opSubmit task_id d u desc => (submit s task_id d u desc).2
  | Op.opDispatch => (dispatch s).2
  | Op.opCancel task_id => (cancel s task_id).2

/-- Apply a sequence of facade operations to a state. -/
def applyOps (s : SpecScheduler) (ops : List Op) : SpecScheduler :=
  ops.foldl applyOp s

/-- Whether an operation is a `submit` of the given id. -/
def submitsId (op : Op) (task_id : String) : Bool :=
  match op with
  | Op.opSubmit id2 _ _ _ => id2 == task_id
  | _ => false

/-- A task id entirely absent from the scheduler: no Index entry and no
Priority Structure entry. -/
def Absent (s : SpecScheduler) (task_id : String) : Prop :=
  List.lookup task_id s.index.task_metadata = none ∧
  task_id ∉ s.heap.map PrioEntry.task_id

theorem absent_applyOp (s : SpecScheduler) (task_id : String) (op : Op)
    (h : Absent s task_id) (hop : submitsId op task_id = false) :
    Absent (applyOp s op) task_id := by
  obtain ⟨hidx, hheapid⟩ := h
  cases op with
  | opSubmit id2 d u desc =>
    have hne : id2 ≠ task_id := by simpa [submitsId] using hop
    by_cases hc : dictContains s.index.task_metadata id2
    · simpa [applyOp, submit, hc] using ⟨hidx, hheapid⟩
    · refine ⟨?_, ?_⟩
      · simp only [applyOp, submit, hc, if_false, add_task_metadata]
        have hl2 : List.lookup id2 s.index.task_metadata = none := by
          rcases hl : List.lookup id2 s.index.task_metadata with _ | m2
          · rfl
          · simp [dictContains, hl] at hc
        simp only [dictContains, hl2, Option.isSome_none, Bool.false_eq_true, if_false]
        rw [lookup_append_of_none _ _ _ hidx, lookup_singleton]
        simp [hne.symm]
      · simp only [applyOp, submit, hc, if_false]
        intro hmem
        obtain ⟨e, he, heid⟩ := List.mem_map.mp hmem
        rcases (List.mem_orderedInsert keyLe).mp he with he0 | hein
        · subst he0; exact hne heid
        · exact hheapid (List.mem_map.mpr ⟨e, hein, heid⟩)
  | opDispatch =>
    rcases hheap : s.heap with _ | ⟨e, rest⟩
    · simpa [applyOp, dispatch, hheap] using ⟨hidx, hheapid⟩
    · rcases hfind : find_task_metadata s.index e.task_id with m | str
      · have hcontains : dictContains s.index.task_metadata e.task_id = true := by
          simp [dictContains, (find_eq_inl_iff _ _ _).mp hfind]
        refine ⟨?_, ?_⟩
        · simp only [applyOp, dispatch, hheap, hfind, complete_task_metadata, hcontains,
            if_true]
          by_cases hk : task_id = e.task_id
          · rw [hk, lookup_dictDelete_self]
          · rw [lookup_dictDelete_ne _ _ _ hk]; exact hidx
        · simp only [applyOp, dispatch, hheap, hfind]
          intro hmem
          exact hheapid (by rw [hheap]; exact List.mem_cons_of_mem _ hmem)
      · simpa [applyOp, dispatch, hheap, hfind] using ⟨hidx, hheapid⟩
  | opCancel id2 =>
    rcases hfind : find_task_metadata s.index id2 with m | str
    · have hcontains : dictContains s.index.task_metadata id2 = true := by
        simp [dictContains, (find_eq_inl_iff _ _ _).mp hfind]
      refine ⟨?_, ?_⟩
      · simp only [applyOp, cancel, hfind, complete_task_metadata, hcontains, if_true]
        by_cases hk : task_id = id2
        · rw [hk, lookup_dictDelete_self]
        · rw [lookup_dictDelete_ne _ _ _ hk]; exact hidx
      · simp only [applyOp, cancel, hfind]
        intro hmem
        obtain ⟨e, he, heid⟩ := List.mem_map.mp hmem
        exact hheapid (List.mem_map.mpr ⟨e, List.mem_of_mem_filter he, heid⟩)
    · simpa [applyOp, cancel, hfind] using ⟨hidx, hheapid⟩

theorem absent_applyOps (ops : List Op) :
    ∀ (s : SpecScheduler) (task_id : String), Absent s task_id →
      (∀ op ∈ ops, submitsId op task_id = false) →
      Absent (applyOps s ops) task_id := by
  induction ops with
  | nil => intro s task_id h _; simpa [applyOps] using h
  | cons op ops ih =>
    intro s task_id h hops
    simp only [applyOps, List.foldl_cons]
    exact ih (applyOp s op) task_id
      (absent_applyOp s task_id op h (hops op (List.mem_cons_self op ops)))
      (fun op2 hop2 => hops op2 (List.mem_cons_of_mem op hop2))

theorem inspect_of_absent (s : SpecScheduler) (task_id : String)
    (h : Absent s task_id) : inspect s task_id = Except.error SchedErr.NotFound := by
  simp [inspect, find_task_metadata, h.1]

theorem next_ne_of_absent (s : SpecScheduler) (task_id : String)
    (h : Absent s task_id) : ∀ r, next s = some r → r.1 ≠ task_id := by
  intro r hr
  rcases hheap : s.heap with _ | ⟨e, rest⟩
  · simp [next, hheap] at hr
  · rcases hfind : find_task_metadata s.index e.task_id with m | str
    · simp only [next, hheap, hfind] at hr
      obtain rfl := Option.some.inj hr
      intro heq
      exact h.2 (by rw [hheap]; exact List.mem_map.mpr ⟨e, List.mem_cons_self e rest, heq⟩)
    · simp [next, hheap, hfind] at hr

theorem absent_after_dispatch (s : SpecScheduler) (h : SchedInv s) (task_id : String)
    (m : TaskMeta) (hd : (dispatch s).1 = some (task_id, m)) :
    Absent (dispatch s).2 task_id := by
  rcases hheap : s.heap with _ | ⟨e, rest⟩
  · simp [dispatch, hheap] at hd
  · rcases hfind : find_task_metadata s.index e.task_id with m2 | str
    · simp only [dispatch, hheap, hfind] at hd ⊢
      have hpair : (e.task_id, m2) = (task_id, m) := Option.some.inj hd
      have hid : e.task_id = task_id := congrArg Prod.fst hpair
      have hcontains : dictContains s.index.task_metadata e.task_id = true := by
        simp [dictContains, (find_eq_inl_iff _ _ _).mp hfind]
      refine ⟨?_, ?_⟩
      · simp only [complete_task_metadata, hcontains, if_true]
        rw [← hid, lookup_dictDelete_self]
      · intro hmem
        obtain ⟨e2, he2, heid⟩ := List.mem_map.mp hmem
        have hnd := h.nodupIds
        rw [hheap] at hnd
        simp only [List.map_cons, List.nodup_cons] at hnd
        exact hnd.1 (by rw [hid]; exact heid ▸ List.mem_map_of_mem PrioEntry.task_id he2)
    · simp [dispatch, hheap, hfind] at hd

theorem absent_after_cancel (s : SpecScheduler) (task_id : String)
    (r : String × TaskMeta) (hc : (cancel s task_id).1 = Except.ok r) :
    Absent (cancel s task_id).2 task_id := by
  rcases hfind : find_task_metadata s.index task_id with m | str
  · have hcontains : dictContains s.index.task_metadata task_id = true := by
      simp [dictContains, (find_eq_inl_iff _ _ _).mp hfind]
    simp only [cancel, hfind]
    refine ⟨?_, ?_⟩
    · simp only [complete_task_metadata, hcontains, if_true]
      exact lookup_dictDelete_self _ _
    · intro hmem
      obtain ⟨e, he, heid⟩ := List.mem_map.mp hmem
      have := (List.mem_filter.mp he).2
      simp [heid] at this
  · simp [cancel, hfind] at hc

/-! ### Bulk submission and draining, for the ordering property -/

/-- Fold a batch of `submit` calls (id, deadline, urgency, description). -/
def submitAll (s : SpecScheduler) (ts : List (String × Int × Int × String)) :
    SpecScheduler :=
  ts.foldl (fun acc t => (submit acc t.1 t.2.1 t.2.2.1 t.2.2.2).2) s

/-- Repeated `dispatch`, collecting the returned records. -/
def drain : Nat → SpecScheduler → List (String × TaskMeta)
  | 0, _ => []
  | Nat.succ n, s =>
    match dispatch s with
    | (some r, s2) => r :: drain n s2
    | (none, _) => []

/-- Priority order on returned records: urgency ascending, deadline
ascending on ties. -/
def recLe (r1 r2 : String × TaskMeta) : Prop :=
  r1.2.urgency < r2.2.urgency ∨
    (r1.2.urgency = r2.2.urgency ∧ r1.2.deadline ≤ r2.2.deadline)

theorem submitAll_spec (ts : List (String × Int × Int × String)) :
    ∀ (s : SpecScheduler), SchedInv s → (ts.map Prod.fst).Nodup →
      (∀ t ∈ ts, List.lookup t.1 s.index.task_metadata = none) →
      SchedInv (submitAll s ts) ∧
      ((submitAll s ts).heap.map PrioEntry.task_id).Perm
        (ts.map Prod.fst ++ s.heap.map PrioEntry.task_id) := by
  induction ts with
  | nil =>
    intro s hInv _ _
    exact ⟨by simpa [submitAll] using hInv, by simp [submitAll]⟩
  | cons t ts ih =>
    intro s hInv hnd hfresh
    have hfresh0 : List.lookup t.1 s.index.task_metadata = none :=
      hfresh t (List.mem_cons_self t ts)
    have hc : dictContains s.index.task_metadata t.1 = false := by
      simp [dictContains, hfresh0]
    have hstep : (submit s t.1 t.2.1 t.2.2.1 t.2.2.2).2 =
        ⟨⟨s.index.task_metadata ++ [(t.1, ⟨t.2.1, t.2.2.1, t.2.2.2⟩)]⟩,
         s.heap.orderedInsert keyLe ⟨t.1, t.2.2.1, t.2.1, s.nextSeq⟩,
         s.nextSeq + 1⟩ := by
      simp [submit, hc, add_task_metadata]
    have hInv2 : SchedInv (submit s t.1 t.2.1 t.2.2.1 t.2.2.2).2 :=
      inv_submit s t.1 t.2.1 t.2.2.1 t.2.2.2 hInv
    have hne : ∀ u ∈ ts, u.1 ≠ t.1 := by
      intro u hu hequ
      exact (List.nodup_cons.mp hnd).1 (hequ ▸ List.mem_map_of_mem Prod.fst hu)
    have hfresh2 : ∀ u ∈ ts,
        List.lookup u.1 (submit s t.1 t.2.1 t.2.2.1 t.2.2.2).2.index.task_metadata =
          none := by
      intro u hu
      rw [hstep]
      simp only
      rw [lookup_append_of_none _ _ _ (hfresh u (List.mem_cons_of_mem t hu)),
        lookup_singleton]
      simp [hne u hu]
    have hrec := ih (submit s t.1 t.2.1 t.2.2.1 t.2.2.2).2 hInv2
      (List.nodup_cons.mp hnd).2 hfresh2
    have hfold : submitAll s (t :: ts) =
        submitAll (submit s t.1 t.2.1 t.2.2.1 t.2.2.2).2 ts := by
      simp [submitAll, List.foldl_cons]
    refine ⟨hfold ▸ hrec.1, ?_⟩
    rw [hfold]
    refine hrec.2.trans ?_
    have hheap2 : ((submit s t.1 t.2.1 t.2.2.1 t.2.2.2).2.heap.map
        PrioEntry.task_id).Perm (t.1 :: s.heap.map PrioEntry.task_id) := by
      rw [hstep]
      simpa using (List.perm_orderedInsert keyLe
        (⟨t.1, t.2.2.1, t.2.1, s.nextSeq⟩ : PrioEntry) s.heap).map PrioEntry.task_id
    refine (List.Perm.append_left (ts.map Prod.fst) hheap2).trans ?_
    simp only [List.map_cons]
    exact List.perm_middle

theorem drain_spec (n : Nat) :
    ∀ (s : SpecScheduler), SchedInv s → s.heap.length = n →
      (drain n s).map Prod.fst = s.heap.map PrioEntry.task_id ∧
      (∀ r ∈ drain n s, ∃ e ∈ s.heap, r.1 = e.task_id ∧
        r.2.urgency = e.urgency ∧ r.2.deadline = e.deadline) ∧
      (drain n s).Pairwise recLe := by
  induction n with
  | zero =>
    intro s _ hlen
    have : s.heap = [] := List.length_eq_zero.mp hlen
    simp [drain, this]
  | succ n ih =>
    intro s hInv hlen
    rcases hheap : s.heap with _ | ⟨e, rest⟩
    · rw [hheap] at hlen; simp at hlen
    · obtain ⟨m, hm, hmu, hmd⟩ := hInv.agree e (hheap ▸ List.mem_cons_self e rest)
      have hfind : find_task_metadata s.index e.task_id = Sum.inl m :=
        (find_eq_inl_iff _ _ _).mpr hm
      have hdisp : dispatch s = (some (e.task_id, m),
          ⟨(complete_task_metadata s.index e.task_id).2, rest, s.nextSeq⟩) := by
        simp [dispatch, hheap, hfind]
      have hInv2 : SchedInv (⟨(complete_task_metadata s.index e.task_id).2, rest,
          s.nextSeq⟩ : SpecScheduler) := by
        have := inv_dispatch s hInv
        rw [hdisp] at this
        exact this
      have hlen2 : (⟨(complete_task_metadata s.index e.task_id).2, rest,
          s.nextSeq⟩ : SpecScheduler).heap.length = n := by
        rw [hheap] at hlen
        simpa using Nat.succ_injective hlen
      obtain ⟨ihmap, ihmem, ihpw⟩ := ih _ hInv2 hlen2
      have hdrain : drain (Nat.succ n) s = (e.task_id, m) ::
          drain n ⟨(complete_task_metadata s.index e.task_id).2, rest, s.nextSeq⟩ := by
        simp [drain, hdisp]
      rw [hdrain]
      refine ⟨by simpa using ihmap, ?_, ?_⟩
      · intro r hr
        rcases List.mem_cons.mp hr with rfl | hmem
        · exact ⟨e, List.mem_cons_self e rest, rfl, hmu, hmd⟩
        · obtain ⟨e2, he2, h1, h2, h3⟩ := ihmem r hmem
          exact ⟨e2, List.mem_cons_of_mem e he2, h1, h2, h3⟩
      · refine List.Pairwise.cons ?_ ihpw
        intro r hr
        obtain ⟨e2, he2, _, hru, hrd⟩ := ihmem r hr
        have hle : keyLe e e2 :=
          List.rel_of_sorted_cons (hheap ▸ hInv.sorted) e2 he2
        unfold recLe
        rw [hru, hrd]
        simp only
        rw [hmu, hmd]
        unfold keyLe at hle
        omega

/-! ### Helper facts about `next` results -/

theorem next_all_ne_of_absent (s : SpecScheduler) (task_id : String)
    (h : Absent s task_id) :
    (next s).all (fun r2 => r2.1 != task_id) = true := by
  rcases hn : next s with _ | r
  · rfl
  · simp only [Option.all]
    simpa using next_ne_of_absent s task_id h r hn

/-- A small concrete run shared by the witnesses: submit task a (deadline 10,
urgency 5) then task b (deadline 5, urgency 5). -/
def demoState : SpecScheduler :=
  (submit (submit initSpecScheduler "a" 10 5 "x").2 "b" 5 5 "y").2

theorem demoState_reachable : Reachable demoState :=
  Reachable.step_submit _ "b" 5 5 "y"
    (Reachable.step_submit _ "a" 10 5 "x" Reachable.init)

/-! ### The claims -/

/-- C1: in every reachable state with at least one pending task, `dispatch`
returns the pending task whose priority entry is strictly least in the
(urgency, deadline, submission-order) lexicographic order: numerically lowest
urgency, ties broken by lowest deadline, then by earliest submission. -/
theorem dispatch_returns_lowest_urgency (s : SpecScheduler) (hr : Reachable s)
    (hne : s.heap ≠ []) :
    ∃ e ∈ s.heap, (∃ m, (dispatch s).1 = some (e.task_id, m)) ∧
      ∀ e2 ∈ s.heap, e2 ≠ e → keyLt e e2 := by
  have h := reach_inv s hr
  rcases hheap : s.heap with _ | ⟨e, rest⟩
  · exact absurd hheap hne
  · obtain ⟨m, hm, hmu, hmd⟩ := h.agree e (hheap ▸ List.mem_cons_self e rest)
    have hfind : find_task_metadata s.index e.task_id = Sum.inl m :=
      (find_eq_inl_iff _ _ _).mpr hm
    refine ⟨e, List.mem_cons_self e rest, ⟨m, ?_⟩, ?_⟩
    · simp [dispatch, hheap, hfind]
    · intro e2 he2 hne2
      rcases List.mem_cons.mp he2 with rfl | hmem
      · exact absurd rfl hne2
      · have hle : keyLe e e2 := List.rel_of_sorted_cons (hheap ▸ h.sorted) e2 hmem
        have hnd := h.seqNodup
        rw [hheap] at hnd
        simp only [List.map_cons, List.nodup_cons] at hnd
        have hseqne : e.seq ≠ e2.seq := by
          intro heq
          exact hnd.1 (heq ▸ List.mem_map_of_mem PrioEntry.seq hmem)
        exact keyLt_of_keyLe_of_seq_ne e e2 hle hseqne

/-- C1 witness: the property at the concrete two-task state, where the later
submission b (equal urgency, lower deadline) is dispatched first. -/
theorem dispatch_returns_lowest_urgency_witness :
    ∃ e ∈ demoState.heap, (∃ m, (dispatch demoState).1 = some (e.task_id, m)) ∧
      ∀ e2 ∈ demoState.heap, e2 ≠ e → keyLt e e2 :=
  dispatch_returns_lowest_urgency demoState demoState_reachable (by decide)

/-- C2: in every reachable state, a task id has an Index entry iff exactly one
Priority Entry carries that id, and every Priority Entry's id has an Index
entry. -/
theorem index_heap_consistency (s : SpecScheduler) (hr : Reachable s)
    (task_id : String) :
    ((List.lookup task_id s.index.task_metadata).isSome = true ↔
      s.heap.countP (fun e => e.task_id == task_id) = 1) ∧
    ∀ e ∈ s.heap, (List.lookup e.task_id s.index.task_metadata).isSome = true := by
  have h := reach_inv s hr
  have hcount : s.heap.countP (fun e => e.task_id == task_id) =
      (s.heap.map PrioEntry.task_id).count task_id := by
    rw [List.count_eq_countP, List.countP_map]
    rfl
  refine ⟨⟨?_, ?_⟩, ?_⟩
  · intro hk
    rw [hcount]
    exact List.count_eq_one_of_mem h.nodupIds (h.indexSub task_id hk)
  · intro hc
    have hpos : 0 < (s.heap.map PrioEntry.task_id).count task_id := by
      rw [← hcount, hc]
      exact Nat.one_pos
    obtain ⟨e, he, heid⟩ := List.mem_map.mp (List.count_pos_iff.mp hpos)
    obtain ⟨m, hm, _, _⟩ := h.agree e he
    rw [← heid, hm]
    rfl
  · intro e he
    obtain ⟨m, hm, _, _⟩ := h.agree e he
    rw [hm]
    rfl

/-- C2 witness: the consistency property at the concrete two-task state. -/
theorem index_heap_consistency_witness :
    ((List.lookup "a" demoState.index.task_metadata).isSome = true ↔
      demoState.heap.countP (fun e => e.task_id == "a") = 1) ∧
    ∀ e ∈ demoState.heap,
      (List.lookup e.task_id demoState.index.task_metadata).isSome = true :=
  index_heap_consistency demoState demoState_reachable "a"

/-- C3: submitting a task id that is already present fails with the
duplicate-id error (the source's error string; the facade's `DuplicateId`
value) and leaves the entire state — the Index, and in the facade also the
Priority Structure — exactly unchanged. -/
theorem duplicate_submit_rejected (s : Scheduler) (ss : SpecScheduler)
    (task_id : String) (deadline urgency : Int) (description : String)
    (h1 : (List.lookup task_id s.task_metadata).isSome = true)
    (h2 : (List.lookup task_id ss.index.task_metadata).isSome = true) :
    add_task_metadata s task_id deadline urgency description = (dupIdMsg task_id, s) ∧
    submit ss task_id deadline urgency description =
      (Except.error SchedErr.DuplicateId, ss) := by
  constructor
  · simp [add_task_metadata, dictContains, h1]
  · simp [submit, dictContains, h2]

/-- C3 witness: resubmitting id a at a concrete populated state. -/
theorem duplicate_submit_rejected_witness :
    add_task_metadata ⟨[("a", ⟨1, 2, "x"⟩)]⟩ "a" 3 4 "y" =
      (dupIdMsg "a", ⟨[("a", ⟨1, 2, "x"⟩)]⟩) ∧
    submit demoState "a" 3 4 "y" = (Except.error SchedErr.DuplicateId, demoState) :=
  duplicate_submit_rejected ⟨[("a", ⟨1, 2, "x"⟩)]⟩ demoState "a" 3 4 "y"
    (by decide) (by decide)

/-- C4: after any sequence of adds with pairwise-distinct task ids starting
from the initial scheduler, every submitted id is retrievable with exactly
the deadline, urgency and description supplied for it. -/
theorem distinct_adds_all_retrievable (ts : List (String × Int × Int × String))
    (hnd : (ts.map Prod.fst).Nodup) :
    ∀ t ∈ ts, find_task_metadata (addAll initScheduler ts) t.1 =
      Sum.inl ⟨t.2.1, t.2.2.1, t.2.2.2⟩ :=
  addAll_retrievable ts initScheduler hnd (fun _ _ => rfl)

/-- C4 witness: two concrete adds, first id retrieved exactly. -/
theorem distinct_adds_all_retrievable_witness :
    find_task_metadata (addAll initScheduler
        [("a", ((1 : Int), (2 : Int), "x")), ("b", ((3 : Int), (4 : Int), "y"))]) "a" =
      Sum.inl ⟨1, 2, "x"⟩ :=
  distinct_adds_all_retrievable
    [("a", ((1 : Int), (2 : Int), "x")), ("b", ((3 : Int), (4 : Int), "y"))]
    (by decide) ("a", ((1 : Int), (2 : Int), "x")) (by decide)

/-- C5 counterexample: a failing `find_task_metadata` reports its failure as
the human-readable message string built from the task id, carried in the
ordinary return channel — not as a distinguished error-kind value. -/
theorem error_is_string_counterexample :
    find_task_metadata initScheduler "x" =
      Sum.inr ("Error: Task ID " ++ quoteChar ++ "x" ++ quoteChar ++ " not found.") :=
  rfl

/-- C5 amended: every failing source operation reports its failure by
returning a human-readable message string (the duplicate-id message for add,
the not-found message for find and complete), not an explicit error-kind
value. -/
theorem failures_are_error_strings (s : Scheduler) (idp ida : String)
    (deadline urgency : Int) (description : String)
    (hp : (List.lookup idp s.task_metadata).isSome = true)
    (ha : List.lookup ida s.task_metadata = none) :
    (add_task_metadata s idp deadline urgency description).1 = dupIdMsg idp ∧
    find_task_metadata s ida = Sum.inr (notFoundMsg ida) ∧
    (complete_task_metadata s ida).1 = notFoundMsg ida := by
  refine ⟨?_, ?_, ?_⟩
  · simp [add_task_metadata, dictContains, hp]
  · simp [find_task_metadata, ha]
  · simp [complete_task_metadata, dictContains, ha]

/-- C5 witness: the three failure messages at a concrete one-task state. -/
theorem failures_are_error_strings_witness :
    (add_task_metadata ⟨[("a", ⟨1, 2, "x"⟩)]⟩ "a" 3 4 "y").1 = dupIdMsg "a" ∧
    find_task_metadata ⟨[("a", ⟨1, 2, "x"⟩)]⟩ "b" = Sum.inr (notFoundMsg "b") ∧
    (complete_task_metadata ⟨[("a", ⟨1, 2, "x"⟩)]⟩ "b").1 = notFoundMsg "b" :=
  failures_are_error_strings ⟨[("a", ⟨1, 2, "x"⟩)]⟩ "a" "b" 3 4 "y"
    (by decide) (by decide)

/-- C6: after a successful `dispatch` or `cancel` of a task id, and any
further sequence of operations that does not resubmit that id, `inspect`
of the id fails with `NotFound` and `next` never returns a record carrying
the id. -/
theorem after_remove_not_found (s : SpecScheduler) (hr : Reachable s)
    (task_id : String) (m : TaskMeta) (r : String × TaskMeta) (s2 : SpecScheduler)
    (ops : List Op)
    (hops : ∀ op ∈ ops, submitsId op task_id = false)
    (hrem : ((dispatch s).1 = some (task_id, m) ∧ s2 = (dispatch s).2) ∨
            ((cancel s task_id).1 = Except.ok r ∧ s2 = (cancel s task_id).2)) :
    inspect (applyOps s2 ops) task_id = Except.error SchedErr.NotFound ∧
    (next (applyOps s2 ops)).all (fun r2 => r2.1 != task_id) = true := by
  have habs : Absent s2 task_id := by
    rcases hrem with ⟨hd, hs2⟩ | ⟨hc, hs2⟩
    · exact hs2 ▸ absent_after_dispatch s (reach_inv s hr) task_id m hd
    · exact hs2 ▸ absent_after_cancel s task_id r hc
  have habs2 := absent_applyOps ops s2 task_id habs hops
  exact ⟨inspect_of_absent _ _ habs2, next_all_ne_of_absent _ _ habs2⟩

/-- C6 witness: dispatch b from the concrete two-task state, run one further
dispatch, and observe b is gone from inspect and next. -/
theorem after_remove_not_found_witness :
    inspect (applyOps (dispatch demoState).2 [Op.opDispatch]) "b" =
      Except.error SchedErr.NotFound ∧
    (next (applyOps (dispatch demoState).2 [Op.opDispatch])).all
      (fun r2 => r2.1 != "b") = true :=
  after_remove_not_found demoState demoState_reachable "b" ⟨5, 5, "y"⟩
    ("b", ⟨5, 5, "y"⟩) (dispatch demoState).2 [Op.opDispatch] (by decide)
    (Or.inl ⟨by decide, rfl⟩)

/-- C7: a second `complete_task_metadata` (cancel) in a row on the same task
id fails with the not-found error and leaves the state unchanged. -/
theorem second_cancel_not_found (s : Scheduler) (task_id : String) :
    complete_task_metadata (complete_task_metadata s task_id).2 task_id =
      (notFoundMsg task_id, (complete_task_metadata s task_id).2) := by
  by_cases hc : dictContains s.task_metadata task_id
  · have h2 : (complete_task_metadata s task_id).2 =
        ⟨dictDelete s.task_metadata task_id⟩ := by
      simp [complete_task_metadata, hc]
    rw [h2]
    have hgone : dictContains (dictDelete s.task_metadata task_id) task_id = false := by
      simp [dictContains, lookup_dictDelete_self]
    simp [complete_task_metadata, hgone]
  · have h2 : (complete_task_metadata s task_id).2 = s := by
      simp [complete_task_metadata, hc]
    rw [h2]
    simp [complete_task_metadata, hc]

/-- C8 counterexample: a successful delete returns the same value for two
states holding different metadata records under the deleted id, and that
value is the fixed acknowledgement message — so the deleted record is not
returned. -/
theorem delete_returns_ack_counterexample :
    (complete_task_metadata ⟨[("a", ⟨1, 2, "x"⟩)]⟩ "a").1 =
      (complete_task_metadata ⟨[("a", ⟨3, 4, "y"⟩)]⟩ "a").1 ∧
    (complete_task_metadata ⟨[("a", ⟨1, 2, "x"⟩)]⟩ "a").1 = deletedMsg "a" := by
  exact ⟨rfl, rfl⟩

/-- C8 amended: a successful delete removes the record and returns the
acknowledgement message naming only the task id (not the record); deleting
an absent id fails with the not-found message and leaves the state
unchanged. -/
theorem delete_ack_and_notfound (s : Scheduler) (idp ida : String)
    (hp : (List.lookup idp s.task_metadata).isSome = true)
    (ha : List.lookup ida s.task_metadata = none) :
    complete_task_metadata s idp =
      (deletedMsg idp, ⟨dictDelete s.task_metadata idp⟩) ∧
    complete_task_metadata s ida = (notFoundMsg ida, s) := by
  constructor
  · simp [complete_task_metadata, dictContains, hp]
  · simp [complete_task_metadata, dictContains, ha]

/-- C8 witness: deleting present id a and absent id b at a concrete state. -/
theorem delete_ack_and_notfound_witness :
    complete_task_metadata ⟨[("a", ⟨1, 2, "x"⟩)]⟩ "a" =
      (deletedMsg "a", ⟨dictDelete [("a", ⟨1, 2, "x"⟩)] "a"⟩) ∧
    complete_task_metadata ⟨[("a", ⟨1, 2, "x"⟩)]⟩ "b" =
      (notFoundMsg "b", ⟨[("a", ⟨1, 2, "x"⟩)]⟩) :=
  delete_ack_and_notfound ⟨[("a", ⟨1, 2, "x"⟩)]⟩ "a" "b" (by decide) (by decide)

/-- C9: submitting any batch of tasks with pairwise-distinct ids (in any
interleaving order) and then dispatching as many times yields every submitted
id exactly once — a permutation, no duplicates, no omissions — with the
returned records in priority order (urgency ascending, deadline ascending on
ties). -/
theorem concurrent_submits_dispatch_in_order
    (ts : List (String × Int × Int × String))
    (hnd : (ts.map Prod.fst).Nodup) :
    ((drain ts.length (submitAll initSpecScheduler ts)).map Prod.fst).Perm
      (ts.map Prod.fst) ∧
    (drain ts.length (submitAll initSpecScheduler ts)).Pairwise recLe := by
  obtain ⟨hInv, hperm⟩ := submitAll_spec ts initSpecScheduler inv_init hnd
    (fun _ _ => rfl)
  have hlen : (submitAll initSpecScheduler ts).heap.length = ts.length := by
    have := hperm.length_eq
    simpa using this
  obtain ⟨hmap, _, hpw⟩ :=
    drain_spec ts.length (submitAll initSpecScheduler ts) hInv hlen
  refine ⟨?_, hpw⟩
  rw [hmap]
  simpa [initSpecScheduler] using hperm

/-- C9 witness: two concrete submissions drained in priority order. -/
theorem concurrent_submits_dispatch_in_order_witness :
    ((drain ([("a", ((10 : Int), (5 : Int), "x")),
        ("b", ((5 : Int), (5 : Int), "y"))] : List (String × Int × Int × String)).length
      (submitAll initSpecScheduler
        [("a", ((10 : Int), (5 : Int), "x")),
         ("b", ((5 : Int), (5 : Int), "y"))])).map Prod.fst).Perm
      ([("a", ((10 : Int), (5 : Int), "x")),
        ("b", ((5 : Int), (5 : Int), "y"))].map Prod.fst) ∧
    (drain ([("a", ((10 : Int), (5 : Int), "x")),
        ("b", ((5 : Int), (5 : Int), "y"))] : List (String × Int × Int × String)).length
      (submitAll initSpecScheduler
        [("a", ((10 : Int), (5 : Int), "x")),
         ("b", ((5 : Int), (5 : Int), "y"))])).Pairwise recLe :=
  concurrent_submits_dispatch_in_order
    [("a", ((10 : Int), (5 : Int), "x")), ("b", ((5 : Int), (5 : Int), "y"))]
    (by decide)

/-- C10: the three source operations are total: on every state and arguments
each returns one of its two specified results — the success result or the
error-message result — and never anything else. -/
theorem operations_total (s : Scheduler) (task_id : String)
    (deadline urgency : Int) (description : String) :
    (add_task_metadata s task_id deadline urgency description =
        (dupIdMsg task_id, s) ∨
     add_task_metadata s task_id deadline urgency description =
        (addedMsg task_id,
         ⟨s.task_metadata ++ [(task_id, ⟨deadline, urgency, description⟩)]⟩)) ∧
    ((∃ m, find_task_metadata s task_id = Sum.inl m) ∨
     find_task_metadata s task_id = Sum.inr (notFoundMsg task_id)) ∧
    (complete_task_metadata s task_id =
        (deletedMsg task_id, ⟨dictDelete s.task_metadata task_id⟩) ∨
     complete_task_metadata s task_id = (notFoundMsg task_id, s)) := by
  refine ⟨?_, ?_, ?_⟩
  · by_cases hc : dictContains s.task_metadata task_id
    · exact Or.inl (by simp [add_task_metadata, hc])
    · exact Or.inr (by simp [add_task_metadata, hc])
  · rcases hl : List.lookup task_id s.task_metadata with _ | m
    · exact Or.inr (by simp [find_task_metadata, hl])
    · exact Or.inl ⟨m, by simp [find_task_metadata, hl]⟩
  · by_cases hc : dictContains s.task_metadata task_id
    · exact Or.inl (by simp [complete_task_metadata, hc])
    · exact Or.inr (by simp [complete_task_metadata, hc])
